import Mathlib

/-!
Verification of the SFA (Symbolic Fourier Approximation) transformer in
`sktime/transformations/panel/dictionary_based/_sfa_new.py`.

The development shallowly embeds the routines the claims are about:

* word encoding and bit packing (`generate_words`, `_create_bigram_word`,
  `_transform_case`), over exact rationals, with `np.inf` modelled as `⊤`
  of `WithTop ℚ`, `sys.float_info.max` as the corresponding rational, and
  the `np.int32` storage of the words array modelled as wrap-around at
  `2 ^ 32` plus a two's-complement read-out;
* the binning strategies (`_mcb`, `_igb`, `_k_bins_discretizer`) over
  rationals, with the output of the external entropy splitter (the
  decision tree's thresholds) taken as an input constrained by its
  documented interface;
* the variance-based coefficient selection of `_binning`;
* the windowing arithmetic of `_mft` and `_binning_dft`, including the
  Python semantics of the negative-start slice the latter can produce;
* the configuration validation at the top of `fit`;
* the incremental MFT recurrence of `_mft` and the direct transform
  `_fast_fourier_transform`, over real numbers (the floating-point code is
  modelled with exact reals, which is what the spec's refinement claim is
  about).
-/

namespace SFA

/-! ### Word encoding (`generate_words` and friends) -/

/-- Breakpoint entries: `np.inf` is `⊤`, finite doubles are rationals. -/
abbrev Value := WithTop ℚ

/-- `sys.float_info.max`, the largest finite IEEE-754 double,
`(2 - 2⁻⁵²) · 2¹⁰²³ = (2⁵³ - 1) · 2⁹⁷¹`, which `_mcb` and
`_k_bins_discretizer` write into the last breakpoint column. -/
def floatMax : ℚ := (2 ^ 53 - 1) * 2 ^ 971

/-- One step of the packing loop in `generate_words`:
`word = (word << letter_bits) | bp`. -/
def wordStep (bits word bp : ℕ) : ℕ := (word <<< bits) ||| bp

/-- Packing a list of letters most-significant-first by iterating the
shift-or of `generate_words` from `word = 0`. -/
def packWord (bits : ℕ) (letters : List ℕ) : ℕ := letters.foldl (wordStep bits) 0

/-- The inner bin scan of `generate_words`: the first bin index `bp`
(scanning left to right) with `dfts[a, window, i] <= breakpoints[i, bp]`,
or `none` when no bin catches (the code then emits no letter). -/
def findBin (v : ℚ) : List Value → Option ℕ
  | [] => none
  | bp :: rest => if (v : Value) ≤ bp then some 0 else (findBin v rest).map (· + 1)

/-- The letter loop of `generate_words` for one window: walk the
coefficient vector and the breakpoint rows in parallel, shift-or the first
matching bin into the word, and skip positions with no matching bin. -/
def generateWord (bits : ℕ) : List ℚ → List (List Value) → ℕ → ℕ
  | [], _, word => word
  | _ :: _, [], word => word
  | v :: vs, row :: rows, word =>
      match findBin v row with
      | some bp => generateWord bits vs rows (wordStep bits word bp)
      | none => generateWord bits vs rows word

/-- Reading letter `i` back out of a packed word: right-shift by
`(word_length - 1 - i) * letter_bits` and mask off `letter_bits` bits. -/
def extractLetter (bits wl word i : ℕ) : ℕ :=
  (word >>> ((wl - 1 - i) * bits)) &&& (2 ^ bits - 1)

/-- `letter_bits = ceil(log2(alphabet_size))` (`fit`, line 170). -/
def letterBits (alphabet_size : ℕ) : ℕ := Nat.clog 2 alphabet_size

/-- `_create_bigram_word`: `(word << word_bits) | other_word`. -/
def createBigramWord (word other_word word_bits : ℕ) : ℕ :=
  (word <<< word_bits) ||| other_word

/-- The words array has dtype `np.int32`: storing keeps the low 32 bits of
the accumulated word. -/
def wrap32 (n : ℕ) : ℕ := n % 2 ^ 32

/-- The signed value that a stored 32-bit pattern denotes (two's
complement), i.e. the number a caller reading the `np.int32` array sees. -/
def int32val (p : ℕ) : ℤ := if p < 2 ^ 31 then (p : ℤ) else (p : ℤ) - 2 ^ 32

/-- Primary word for each window of one instance: the
`words[a, window] = word` writes of `generate_words`. -/
def primaryWords (bits : ℕ) (bps : List (List Value)) (vecs : List (List ℚ)) : List ℕ :=
  vecs.map (fun v => wrap32 (generateWord bits v bps 0))

/-- The row of the `words` array that `generate_words` builds for one
instance: all primary words, then (when `bigrams`) for each window
`w ≥ window_size` the bigram of the current in-register word with the
stored word `window_size` positions back, written at index
`num_windows + w - window_size`.  Both kinds of entry wrap at 32 bits on
storage. -/
def wordsRow (bits word_bits window_size : ℕ) (bigrams : Bool)
    (bps : List (List Value)) (vecs : List (List ℚ)) : List ℕ :=
  let primary := primaryWords bits bps vecs
  if bigrams then
    primary ++ (List.range (vecs.length - window_size)).map (fun j =>
      wrap32 (createBigramWord (generateWord bits (vecs.getD (window_size + j) []) bps 0)
        (primary.getD j 0) word_bits))
  else primary

/-- `_transform_case` after `_mft`: a fitted two-column table is used as
is; a wider table is replaced by the two-column table
`[breakpoints[:, 1], np.inf]` before `generate_words` runs. -/
def transformCaseWords (bits word_bits window_size : ℕ) (bigrams : Bool)
    (bps : List (List Value)) (vecs : List (List ℚ)) : List ℕ :=
  if (bps.headD []).length = 2 then
    wordsRow bits word_bits window_size bigrams bps vecs
  else
    wordsRow bits word_bits window_size bigrams
      (bps.map (fun row => [row.getD 1 ⊤, ⊤])) vecs

/-! #### Packing lemmas -/

theorem wordStep_eq (bits word bp : ℕ) (h : bp < 2 ^ bits) :
    wordStep bits word bp = word * 2 ^ bits + bp := by
  have := Nat.mul_add_lt_is_or (i := bits) h word
  rw [wordStep, Nat.shiftLeft_eq, Nat.mul_comm]
  omega

theorem packWord_nil (bits : ℕ) : packWord bits [] = 0 := rfl

theorem foldl_wordStep (bits : ℕ) (letters : List ℕ) (h : ∀ b ∈ letters, b < 2 ^ bits) :
    ∀ w : ℕ, letters.foldl (wordStep bits) w
      = w * 2 ^ (letters.length * bits) + packWord bits letters := by
  induction letters with
  | nil => intro w; simp [packWord]
  | cons b rest ih =>
      intro w
      have hb : b < 2 ^ bits := h b (by simp)
      have hrest : ∀ x ∈ rest, x < 2 ^ bits := fun x hx => h x (by simp [hx])
      have h1 : packWord bits (b :: rest) = rest.foldl (wordStep bits) b := by
        simp [packWord, List.foldl_cons, wordStep_eq bits 0 b hb]
      rw [List.foldl_cons, ih hrest (wordStep bits w b), wordStep_eq bits w b hb, h1,
        ih hrest b]
      simp only [List.length_cons, Nat.add_mul, Nat.one_mul, pow_add]
      ring

theorem packWord_cons (bits b : ℕ) (rest : List ℕ)
    (h : ∀ x ∈ b :: rest, x < 2 ^ bits) :
    packWord bits (b :: rest) = b * 2 ^ (rest.length * bits) + packWord bits rest := by
  have hb : b < 2 ^ bits := h b (by simp)
  have hrest : ∀ x ∈ rest, x < 2 ^ bits := fun x hx => h x (by simp [hx])
  have : packWord bits (b :: rest) = rest.foldl (wordStep bits) b := by
    simp [packWord, List.foldl_cons, wordStep_eq bits 0 b hb]
  rw [this, foldl_wordStep bits rest hrest b]

theorem packWord_lt (bits : ℕ) (letters : List ℕ) (h : ∀ b ∈ letters, b < 2 ^ bits) :
    packWord bits letters < 2 ^ (letters.length * bits) := by
  induction letters with
  | nil => simp [packWord]
  | cons b rest ih =>
      have hb : b < 2 ^ bits := h b (by simp)
      have hrest : ∀ x ∈ rest, x < 2 ^ bits := fun x hx => h x (by simp [hx])
      rw [packWord_cons bits b rest h, List.length_cons]
      have h1 : packWord bits rest < 2 ^ (rest.length * bits) := ih hrest
      have h2 : b + 1 ≤ 2 ^ bits := hb
      have h3 : (b + 1) * 2 ^ (rest.length * bits) ≤ 2 ^ bits * 2 ^ (rest.length * bits) :=
        Nat.mul_le_mul_right _ h2
      rw [Nat.succ_mul, pow_add]
      calc b * 2 ^ (rest.length * bits) + packWord bits rest
      _ < (b + 1) * 2 ^ (rest.length * bits) := by nlinarith
      _ ≤ 2 ^ (rest.length * bits) * 2 ^ bits := by rw [Nat.mul_comm (2 ^ bits)] at h3; exact h3

theorem extractLetter_packWord (bits : ℕ) (letters : List ℕ)
    (h : ∀ b ∈ letters, b < 2 ^ bits) :
    ∀ i < letters.length,
      extractLetter bits letters.length (packWord bits letters) i = letters.getD i 0 := by
  induction letters with
  | nil => intro i hi; simp at hi
  | cons b rest ih =>
      intro i hi
      have hb : b < 2 ^ bits := h b (by simp)
      have hrest : ∀ x ∈ rest, x < 2 ^ bits := fun x hx => h x (by simp [hx])
      have hlt : packWord bits rest < 2 ^ (rest.length * bits) := packWord_lt bits rest hrest
      rw [packWord_cons bits b rest h]
      match i with
      | 0 =>
          simp only [List.getD_cons_zero]
          rw [extractLetter, Nat.shiftRight_eq_div_pow, Nat.and_pow_two_sub_one_eq_mod]
          have hshift : ((b :: rest).length - 1 - 0) * bits = rest.length * bits := by
            simp only [List.length_cons, Nat.add_sub_cancel, Nat.sub_zero]
          rw [hshift, Nat.mul_comm b, Nat.add_comm, Nat.add_mul_div_left _ _ (Nat.two_pow_pos _),
            Nat.div_eq_of_lt hlt]
          simp [Nat.mod_eq_of_lt hb]
      | i + 1 =>
          have hi' : i < rest.length := by simpa using hi
          have key := ih hrest i hi'
          simp only [List.getD_cons_succ]
          rw [extractLetter, Nat.shiftRight_eq_div_pow, Nat.and_pow_two_sub_one_eq_mod]
          have hsh : ((b :: rest).length - 1 - (i + 1)) * bits
              = (rest.length - 1 - i) * bits := by
            simp only [List.length_cons]; congr 1; omega
          rw [hsh]
          have hsplit : rest.length * bits = (i + 1) * bits + (rest.length - 1 - i) * bits := by
            rw [← Nat.add_mul]; congr 1; omega
          rw [hsplit, pow_add, ← Nat.mul_assoc, Nat.mul_comm (b * 2 ^ ((i + 1) * bits)),
            Nat.add_comm, Nat.add_mul_div_left _ _ (Nat.two_pow_pos _)]
          have hmul : b * 2 ^ ((i + 1) * bits) = b * 2 ^ (i * bits) * 2 ^ bits := by
            rw [Nat.add_mul, Nat.one_mul, pow_add, Nat.mul_assoc]
          rw [hmul, Nat.add_mul_mod_self_right]
          rw [extractLetter, Nat.shiftRight_eq_div_pow, Nat.and_pow_two_sub_one_eq_mod] at key
          exact key

/-! #### Bin scan lemmas -/

theorem findBin_spec (v : ℚ) (row : List Value) (bp : ℕ) (h : findBin v row = some bp) :
    bp < row.length ∧ (v : Value) ≤ row.getD bp ⊤ ∧
      ∀ m < bp, ¬ (v : Value) ≤ row.getD m ⊤ := by
  induction row generalizing bp with
  | nil => simp [findBin] at h
  | cons b rest ih =>
      rw [findBin] at h
      by_cases hle : (v : Value) ≤ b
      · rw [if_pos hle] at h
        cases h
        exact ⟨by simp, by simpa using hle, fun m hm => by omega⟩
      · rw [if_neg hle] at h
        rcases Option.map_eq_some'.mp h with ⟨j, hj, rfl⟩
        obtain ⟨h1, h2, h3⟩ := ih j hj
        refine ⟨by simpa using h1, by simpa using h2, ?_⟩
        intro m hm
        match m with
        | 0 => simpa using hle
        | m + 1 => simpa using h3 m (by omega)

theorem findBin_isSome (v : ℚ) (row : List Value)
    (h : ∃ j < row.length, (v : Value) ≤ row.getD j ⊤) : (findBin v row).isSome := by
  induction row with
  | nil => simp at h
  | cons b rest ih =>
      rw [findBin]
      by_cases hle : (v : Value) ≤ b
      · simp [hle]
      · rw [if_neg hle]
        obtain ⟨j, hj, hjle⟩ := h
        match j with
        | 0 => exact absurd (by simpa using hjle) hle
        | j + 1 =>
            have := ih ⟨j, by simpa using hj, by simpa using hjle⟩
            simpa [Option.isSome_map] using this

/-- The sequence of bin indices the letter loop of `generate_words` picks,
in order of letter position (positions with no matching bin are skipped,
as in the source). -/
def chosenBins (vec : List ℚ) (bps : List (List Value)) : List ℕ :=
  (vec.zip bps).filterMap (fun p => findBin p.1 p.2)

theorem generateWord_eq_foldl (bits : ℕ) :
    ∀ (vec : List ℚ) (bps : List (List Value)) (word : ℕ),
      generateWord bits vec bps word = (chosenBins vec bps).foldl (wordStep bits) word := by
  intro vec
  induction vec with
  | nil => intro bps word; simp [generateWord, chosenBins]
  | cons v vs ih =>
      intro bps word
      match bps with
      | [] => simp [generateWord, chosenBins]
      | row :: rows =>
          rw [generateWord]
          rcases hfind : findBin v row with _ | bp
          · simpa [chosenBins, hfind] using ih rows word
          · simpa [chosenBins, hfind] using ih rows (wordStep bits word bp)

theorem chosenBins_spec (vec : List ℚ) (bps : List (List Value))
    (hlen : bps.length = vec.length)
    (hcatch : ∀ i < vec.length,
      ∃ j < (bps.getD i []).length, (vec.getD i 0 : Value) ≤ (bps.getD i []).getD j ⊤) :
    (chosenBins vec bps).length = vec.length ∧
      ∀ i < vec.length,
        (chosenBins vec bps).getD i 0 < (bps.getD i []).length ∧
        (vec.getD i 0 : Value) ≤ (bps.getD i []).getD ((chosenBins vec bps).getD i 0) ⊤ ∧
        ∀ m < (chosenBins vec bps).getD i 0,
          ¬ (vec.getD i 0 : Value) ≤ (bps.getD i []).getD m ⊤ := by
  induction vec generalizing bps with
  | nil => simp [chosenBins]
  | cons v vs ih =>
      match bps with
      | [] => simp at hlen
      | row :: rows =>
          have hlen' : rows.length = vs.length := by simpa using hlen
          have hhead := hcatch 0 (by simp)
          simp only [List.getD_cons_zero] at hhead
          have hs := findBin_isSome v row hhead
          rcases hfind : findBin v row with _ | bp
          · rw [hfind] at hs; simp at hs
          · have hcons : chosenBins (v :: vs) (row :: rows) = bp :: chosenBins vs rows := by
              simp [chosenBins, hfind]
            have htail : ∀ i < vs.length,
                ∃ j < (rows.getD i []).length,
                  (vs.getD i 0 : Value) ≤ (rows.getD i []).getD j ⊤ := by
              intro i hi
              simpa using hcatch (i + 1) (by simpa using Nat.succ_lt_succ hi)
            obtain ⟨hlen2, hspec⟩ := ih rows hlen' htail
            constructor
            · simp [hcons, hlen2]
            · intro i hi
              match i with
              | 0 =>
                  obtain ⟨h1, h2, h3⟩ := findBin_spec v row bp hfind
                  simp only [hcons, List.getD_cons_zero]
                  exact ⟨h1, h2, h3⟩
              | i + 1 =>
                  have hi' : i < vs.length := by simpa using hi
                  simpa [hcons] using hspec i hi'

/-! #### Indexing helpers -/

theorem getD_map_lt {α β : Type} (f : α → β) (l : List α) (d : α) (e : β) (n : ℕ)
    (h : n < l.length) : (l.map f).getD n e = f (l.getD n d) := by
  rw [List.getD_eq_getElem?_getD, List.getElem?_map, List.getElem?_eq_getElem h,
    List.getD_eq_getElem?_getD, List.getElem?_eq_getElem h]
  rfl

theorem getD_range_map {β : Type} (f : ℕ → β) (e : β) (n j : ℕ) (h : j < n) :
    ((List.range n).map f).getD j e = f j := by
  rw [getD_map_lt f _ 0 e j (by simpa using h), List.getD_eq_getElem?_getD,
    List.getElem?_range h]
  rfl

theorem primaryWords_length (bits : ℕ) (bps : List (List Value)) (vecs : List (List ℚ)) :
    (primaryWords bits bps vecs).length = vecs.length := by
  simp [primaryWords]

/-- Any entry of the `words` row below the window count is the stored
(int32-wrapped) primary word of that window, with or without bigrams. -/
theorem wordsRow_getD_primary (bits wb ws : ℕ) (bigrams : Bool)
    (bps : List (List Value)) (vecs : List (List ℚ)) (w : ℕ) (hw : w < vecs.length) :
    (wordsRow bits wb ws bigrams bps vecs).getD w 0
      = wrap32 (generateWord bits (vecs.getD w []) bps 0) := by
  have hprim : (primaryWords bits bps vecs).getD w 0
      = wrap32 (generateWord bits (vecs.getD w []) bps 0) := by
    rw [primaryWords, getD_map_lt _ _ [] 0 w (by omega)]
  cases bigrams with
  | false =>
      rw [wordsRow, if_neg Bool.false_ne_true]
      exact hprim
  | true =>
      rw [wordsRow, if_pos rfl,
        List.getD_append _ _ _ _ (by rw [primaryWords_length]; omega)]
      exact hprim

/-! ### C2: the letter encoding of `transform` -/

/-- The table `_transform_case` actually scans: the fitted table when it
has two columns (`alphabet_size = 2`), otherwise the derived two-column
table `[breakpoints[:, 1], np.inf]`. -/
def effectiveBps (bps : List (List Value)) : List (List Value) :=
  if (bps.headD []).length = 2 then bps else bps.map (fun row => [row.getD 1 ⊤, ⊤])

theorem transformCaseWords_eq_effective (bits wb ws : ℕ) (bigrams : Bool)
    (bps : List (List Value)) (vecs : List (List ℚ)) :
    transformCaseWords bits wb ws bigrams bps vecs
      = wordsRow bits wb ws bigrams (effectiveBps bps) vecs := by
  rw [transformCaseWords, effectiveBps]
  split_ifs <;> rfl

/-- C2 (amended): `transform` encodes letter position `i` against the row
of the table it actually scans — the fitted table itself only when it has
two columns (`alphabet_size = 2`), and the derived two-column table
`[breakpoints[:, 1], np.inf]` otherwise — as the smallest bin index `bp`
with `vector[i] ≤ row[bp]`, scanning bins left to right with ties
resolved toward the lower bin, accumulating
`word = (word << letter_bits) | bp` over letter positions in order; the
accumulated word is stored mod `2^32` in the int32 words array. -/
theorem transform_letter_encoding (bits wb ws : ℕ) (bigrams : Bool)
    (bps : List (List Value)) (vecs : List (List ℚ)) (w : ℕ) (hw : w < vecs.length)
    (hlen : (effectiveBps bps).length = (vecs.getD w []).length)
    (hcatch : ∀ i < (vecs.getD w []).length,
      ∃ j < ((effectiveBps bps).getD i []).length,
        ((vecs.getD w []).getD i 0 : Value) ≤ ((effectiveBps bps).getD i []).getD j ⊤) :
    ∃ letters : List ℕ,
      letters.length = (vecs.getD w []).length ∧
      (∀ i < (vecs.getD w []).length,
        letters.getD i 0 < ((effectiveBps bps).getD i []).length ∧
        ((vecs.getD w []).getD i 0 : Value)
          ≤ ((effectiveBps bps).getD i []).getD (letters.getD i 0) ⊤ ∧
        ∀ m < letters.getD i 0,
          ¬ ((vecs.getD w []).getD i 0 : Value)
            ≤ ((effectiveBps bps).getD i []).getD m ⊤) ∧
      (transformCaseWords bits wb ws bigrams bps vecs).getD w 0
        = wrap32 (letters.foldl (wordStep bits) 0) := by
  obtain ⟨h1, h2⟩ := chosenBins_spec (vecs.getD w []) (effectiveBps bps) hlen hcatch
  refine ⟨chosenBins (vecs.getD w []) (effectiveBps bps), h1, h2, ?_⟩
  rw [transformCaseWords_eq_effective, wordsRow_getD_primary bits wb ws bigrams _ vecs w hw,
    generateWord_eq_foldl]

/-- Fitted three-column table for the C2 counterexample. -/
def c2CexBps : List (List Value) := [[(0 : ℚ), (5 : ℚ), ⊤]]

/-- One window with one coefficient for the C2 counterexample. -/
def c2CexVecs : List (List ℚ) := [[3]]

/-- C2 counterexample: with the `alphabet_size = 3` fitted row
`[0, 5, +inf]` and coefficient value `3`, the claim's scan of the fitted
row picks bin 1 (`3 ≤ 5` first matches there), but `transform` scans the
derived table `[[5, +inf]]` and emits bin 0: the output word is `0`, not
the claimed `1`. -/
theorem transform_letter_encoding_counterexample :
    generateWord 2 [3] c2CexBps 0 = 1 ∧
    (transformCaseWords 2 4 1 false c2CexBps c2CexVecs).getD 0 0 = 0 ∧
    (0 : ℕ) ≠ 1 :=
  ⟨by decide, by decide, by decide⟩

/-- Concrete coefficient vector for the C2 witness (`vec[0]` ties with the
derived bin's breakpoint, exercising the tie-toward-lower-bin rule). -/
def c2Vec : List ℚ := [1, 3]

/-- Concrete fitted three-column table for the C2 witness (its effective
table is `[[1, ⊤], [⊤, ⊤]]`). -/
def c2Bps : List (List Value) := [[(0 : ℚ), (1 : ℚ), ⊤], [(2 : ℚ), ⊤, ⊤]]

/-- The C2 witness panel: one window. -/
def c2WitVecs : List (List ℚ) := [c2Vec]

/-- Witness for the amended C2 at a concrete input: two letter positions,
a three-column fitted table scanned through its derived effective table. -/
theorem transform_letter_encoding_witness :
    0 < c2WitVecs.length ∧
    (effectiveBps c2Bps).length = (c2WitVecs.getD 0 []).length ∧
    (∀ i < (c2WitVecs.getD 0 []).length,
      ∃ j < ((effectiveBps c2Bps).getD i []).length,
        ((c2WitVecs.getD 0 []).getD i 0 : Value)
          ≤ ((effectiveBps c2Bps).getD i []).getD j ⊤) ∧
    ∃ letters : List ℕ,
      letters.length = (c2WitVecs.getD 0 []).length ∧
      (∀ i < (c2WitVecs.getD 0 []).length,
        letters.getD i 0 < ((effectiveBps c2Bps).getD i []).length ∧
        ((c2WitVecs.getD 0 []).getD i 0 : Value)
          ≤ ((effectiveBps c2Bps).getD i []).getD (letters.getD i 0) ⊤ ∧
        ∀ m < letters.getD i 0,
          ¬ ((c2WitVecs.getD 0 []).getD i 0 : Value)
            ≤ ((effectiveBps c2Bps).getD i []).getD m ⊤) ∧
      (transformCaseWords 2 4 1 false c2Bps c2WitVecs).getD 0 0
        = wrap32 (letters.foldl (wordStep 2) 0) :=
  ⟨by decide, by decide, by decide,
    transform_letter_encoding 2 4 1 false c2Bps c2WitVecs 0 (by decide) (by decide)
      (by decide)⟩

/-! ### C9: word round-trip -/

theorem letterBits_two : letterBits 2 = 1 :=
  le_antisymm ((Nat.le_pow_iff_clog_le (by norm_num)).mp (by norm_num))
    (Nat.clog_pos (by norm_num) (by norm_num))

theorem letterBits_three_le : letterBits 3 ≤ 16 :=
  (Nat.le_pow_iff_clog_le (by norm_num)).mp (by norm_num)

/-- C9 (amended): for every alphabet size `≥ 2` (power of two or not) and
every word length with `word_length · letter_bits ≤ 32`, right-shifting
the int32-stored packed word by `letter_bits` per position and masking
`letter_bits` bits recovers exactly the bin indices that were packed
(every bin index is `< alphabet_size ≤ 2 ^ letter_bits`); for larger
`word_bits` the int32 storage of the words array drops the high letters. -/
theorem packed_word_roundtrip (a wl : ℕ) (letters : List ℕ) (ha : 2 ≤ a)
    (hlen : letters.length = wl) (hlt : ∀ b ∈ letters, b < a)
    (hfits : wl * letterBits a ≤ 32) :
    ∀ i < wl,
      extractLetter (letterBits a) wl (wrap32 (packWord (letterBits a) letters)) i
        = letters.getD i 0 := by
  subst hlen
  have hbound : ∀ b ∈ letters, b < 2 ^ letterBits a := fun b hb =>
    lt_of_lt_of_le (hlt b hb) (Nat.le_pow_clog (by norm_num) a)
  have hsmall : packWord (letterBits a) letters < 2 ^ 32 :=
    lt_of_lt_of_le (packWord_lt _ _ hbound)
      (Nat.pow_le_pow_right (by norm_num) hfits)
  rw [wrap32, Nat.mod_eq_of_lt hsmall]
  exact extractLetter_packWord _ _ hbound

/-- C9 counterexample: `alphabet_size = 2` (`letter_bits = 1`) and
`word_length = 33` is a configuration the claim quantifies over, but the
int32-stored packed word of the letters `1, 0, …, 0` is
`wrap32 (2^32) = 0`: extraction returns `0` at letter position 0, not the
bin index `1` chosen at encode time. -/
theorem packed_word_roundtrip_counterexample :
    (1 :: List.replicate 32 0 : List ℕ).length = 33 ∧
    (∀ b ∈ (1 :: List.replicate 32 0 : List ℕ), b < 2) ∧
    wrap32 (packWord (letterBits 2) (1 :: List.replicate 32 0)) = 0 ∧
    extractLetter (letterBits 2) 33
      (wrap32 (packWord (letterBits 2) (1 :: List.replicate 32 0))) 0 = 0 ∧
    (1 :: List.replicate 32 0 : List ℕ).getD 0 0 = 1 ∧
    (0 : ℕ) ≠ 1 := by
  rw [letterBits_two]
  refine ⟨by decide, by decide, by decide, by decide, by decide, by decide⟩

/-- Witness for the amended C9 at a non-power-of-two alphabet size (3, so
`letter_bits = 2` fits twice in 32 bits) and letters `[2, 1]`. -/
theorem packed_word_roundtrip_witness :
    2 ≤ 3 ∧ ([2, 1] : List ℕ).length = 2 ∧ (∀ b ∈ ([2, 1] : List ℕ), b < 3) ∧
      2 * letterBits 3 ≤ 32 ∧
      ∀ i < 2, extractLetter (letterBits 3) 2 (wrap32 (packWord (letterBits 3) [2, 1])) i
        = ([2, 1] : List ℕ).getD i 0 :=
  ⟨by decide, by decide, by decide,
    by have h := letterBits_three_le; omega,
    packed_word_roundtrip 3 2 [2, 1] (by decide) (by decide) (by decide)
      (by have h := letterBits_three_le; omega)⟩

/-! ### C10: wide fitted tables are binarized at transform time -/

/-- C10: when the fitted table is wider than two columns
(`alphabet_size ≥ 3`), `_transform_case` does not use it: it builds the
two-column table `[breakpoints[:, 1], np.inf]` and generates words from
that, so every letter the transform emits is `0` or `1`, while still
occupying `letter_bits` bits per position in the packed word. -/
theorem wide_alphabet_binarized (bits word_bits window_size : ℕ) (bigrams : Bool)
    (bps : List (List Value)) (vecs : List (List ℚ)) (hbits : 1 ≤ bits)
    (hwide : 3 ≤ (bps.headD []).length) :
    transformCaseWords bits word_bits window_size bigrams bps vecs
      = wordsRow bits word_bits window_size bigrams
          (bps.map (fun row => [row.getD 1 ⊤, ⊤])) vecs ∧
    ∀ vec ∈ vecs, vec.length = bps.length →
      ∀ i < vec.length,
        extractLetter bits vec.length
          (generateWord bits vec (bps.map (fun row => [row.getD 1 ⊤, ⊤])) 0) i ≤ 1 := by
  constructor
  · rw [transformCaseWords, if_neg (by omega)]
  · intro vec hvec hveclen i hi
    set bps2 := bps.map (fun row => [row.getD 1 ⊤, ⊤]) with hbps2
    have hlen2 : bps2.length = vec.length := by simp [hbps2, hveclen]
    have hrow : ∀ j < vec.length, bps2.getD j [] = [(bps.getD j []).getD 1 ⊤, ⊤] := by
      intro j hj
      have hj' : j < bps.length := by omega
      rw [List.getD_eq_getElem?_getD, List.getElem?_map, List.getElem?_eq_getElem hj']
      simp [List.getD_eq_getElem?_getD, List.getElem?_eq_getElem hj']
    have hcatch : ∀ j < vec.length,
        ∃ m < (bps2.getD j []).length, (vec.getD j 0 : Value) ≤ (bps2.getD j []).getD m ⊤ := by
      intro j hj
      refine ⟨1, ?_, ?_⟩ <;> rw [hrow j hj] <;> simp
    obtain ⟨hclen, hcspec⟩ := chosenBins_spec vec bps2 hlen2 hcatch
    have hsmall : ∀ b ∈ chosenBins vec bps2, b < 2 ^ bits := by
      intro b hb
      obtain ⟨j, hj, hbj⟩ := List.getElem_of_mem hb
      have hj' : j < vec.length := by omega
      have := (hcspec j hj').1
      rw [hrow j hj'] at this
      have hb2 : (chosenBins vec bps2).getD j 0 < 2 := by simpa using this
      have hgd : (chosenBins vec bps2).getD j 0 = b := by
        rw [List.getD_eq_getElem?_getD, List.getElem?_eq_getElem hj, hbj]; rfl
      have h2b : (2 : ℕ) ≤ 2 ^ bits := by
        calc (2 : ℕ) = 2 ^ 1 := by norm_num
        _ ≤ 2 ^ bits := Nat.pow_le_pow_right (by norm_num) hbits
      omega
    rw [generateWord_eq_foldl]
    have hfold : (chosenBins vec bps2).foldl (wordStep bits) 0 = packWord bits (chosenBins vec bps2) := rfl
    rw [hfold, ← hclen]
    rw [extractLetter_packWord bits (chosenBins vec bps2) hsmall i (by omega)]
    have := (hcspec i hi).1
    rw [hrow i hi] at this
    simpa using Nat.lt_succ_iff.mp (by simpa using this)

/-- Concrete three-column fitted table for the C10 witness. -/
def c10Bps : List (List Value) := [[(0 : ℚ), (1 : ℚ), (2 : ℚ)], [(0 : ℚ), (1 : ℚ), (2 : ℚ)]]

/-- Concrete window coefficients for the C10 witness. -/
def c10Vecs : List (List ℚ) := [[5, -1]]

/-- Witness for C10: a three-column fitted table, one window. -/
theorem wide_alphabet_binarized_witness :
    (transformCaseWords 2 4 1 false c10Bps c10Vecs
      = wordsRow 2 4 1 false (c10Bps.map (fun row => [row.getD 1 ⊤, ⊤])) c10Vecs) ∧
    ∀ vec ∈ c10Vecs, vec.length = c10Bps.length →
      ∀ i < vec.length,
        extractLetter 2 vec.length
          (generateWord 2 vec (c10Bps.map (fun row => [row.getD 1 ⊤, ⊤])) 0) i ≤ 1 :=
  wide_alphabet_binarized 2 4 1 false c10Bps c10Vecs (by decide) (by decide)

/-! ### C4: bigram formation and placement (`generate_words`) -/

/-- C4 (amended): with bigrams enabled and `window_size ≤` the number of
windows, the output row holds the `n` primary words first; for every
`w ≥ window_size` the entry at position `n + w - window_size` is the
int32-wrapped `(word[w] << word_bits) | word[w - window_size]` (built from
the in-register current word and the stored earlier word), which equals
the unwrapped bigram exactly when that value fits below `2^31`; and no
bigram exists for `w < window_size` (there are exactly `n - window_size`
bigram entries, all after the primaries). -/
theorem bigram_words_layout (bits wb ws : ℕ) (bps : List (List Value))
    (vecs : List (List ℚ)) (hws : 1 ≤ ws) (hn : ws ≤ vecs.length) :
    (wordsRow bits wb ws true bps vecs).length = 2 * vecs.length - ws ∧
    (∀ w < vecs.length,
      (wordsRow bits wb ws true bps vecs).getD w 0
        = wrap32 (generateWord bits (vecs.getD w []) bps 0)) ∧
    (∀ w, ws ≤ w → w < vecs.length →
      (wordsRow bits wb ws true bps vecs).getD (vecs.length + w - ws) 0
        = wrap32 (createBigramWord (generateWord bits (vecs.getD w []) bps 0)
            (wrap32 (generateWord bits (vecs.getD (w - ws) []) bps 0)) wb)) ∧
    (∀ w, ws ≤ w → w < vecs.length →
      createBigramWord (generateWord bits (vecs.getD w []) bps 0)
          (wrap32 (generateWord bits (vecs.getD (w - ws) []) bps 0)) wb < 2 ^ 31 →
      int32val ((wordsRow bits wb ws true bps vecs).getD (vecs.length + w - ws) 0)
        = (createBigramWord (generateWord bits (vecs.getD w []) bps 0)
            (wrap32 (generateWord bits (vecs.getD (w - ws) []) bps 0)) wb : ℤ)) := by
  have hplen : (primaryWords bits bps vecs).length = vecs.length := by
    simp [primaryWords]
  have hprim : ∀ w < vecs.length, (primaryWords bits bps vecs).getD w 0
      = wrap32 (generateWord bits (vecs.getD w []) bps 0) := by
    intro w hw
    rw [primaryWords, getD_map_lt _ _ [] 0 w (by omega)]
  have hrow : wordsRow bits wb ws true bps vecs
      = primaryWords bits bps vecs ++ (List.range (vecs.length - ws)).map (fun j =>
          wrap32 (createBigramWord (generateWord bits (vecs.getD (ws + j) []) bps 0)
            ((primaryWords bits bps vecs).getD j 0) wb)) := by
    rw [wordsRow, if_pos rfl]
  have hbig : ∀ w, ws ≤ w → w < vecs.length →
      (wordsRow bits wb ws true bps vecs).getD (vecs.length + w - ws) 0
        = wrap32 (createBigramWord (generateWord bits (vecs.getD w []) bps 0)
            (wrap32 (generateWord bits (vecs.getD (w - ws) []) bps 0)) wb) := by
    intro w hwsw hwn
    rw [hrow, List.getD_append_right _ _ _ _ (by rw [hplen]; omega)]
    have hidx : vecs.length + w - ws - (primaryWords bits bps vecs).length = w - ws := by
      rw [hplen]; omega
    rw [hidx, getD_range_map _ 0 (vecs.length - ws) (w - ws) (by omega),
      hprim (w - ws) (by omega)]
    have : ws + (w - ws) = w := by omega
    rw [this]
  refine ⟨?_, ?_, hbig, ?_⟩
  · rw [hrow]
    simp only [List.length_append, List.length_map, List.length_range, hplen]
    omega
  · intro w hw
    rw [hrow, List.getD_append _ _ _ _ (by rw [hplen]; omega), hprim w hw]
  · intro w hwsw hwn hfits
    rw [hbig w hwsw hwn, wrap32, Nat.mod_eq_of_lt (by
      have h31 : (2 : ℕ) ^ 31 < 2 ^ 32 := by norm_num
      omega), int32val, if_pos hfits]

/-- Concrete window coefficients for the C4 counterexample: two windows,
16 coefficients each, every coefficient falling in bin 1. -/
def c4Vecs : List (List ℚ) := List.replicate 2 (List.replicate 16 (1 : ℚ))

/-- Two-column breakpoint table for the C4 counterexample
(`word_length = 16`, `letter_bits = 1`, `word_bits = 16`). -/
def c4Bps : List (List Value) := List.replicate 16 [((0 : ℚ) : Value), ⊤]

/-- C4 counterexample: with `window_size = 1`, `word_bits = 16` and both
primary words `= 65535`, the claimed bigram value
`(word[1] << 16) | word[0] = 4294967295` does not fit `np.int32`: the
output row's entry at position `n + w - window_size = 2` reads back as
`-1`, not as the claimed value. -/
theorem bigram_words_layout_counterexample :
    (wordsRow 1 16 1 true c4Bps c4Vecs).getD 0 0 = 65535 ∧
    (wordsRow 1 16 1 true c4Bps c4Vecs).getD 1 0 = 65535 ∧
    (createBigramWord 65535 65535 16 : ℤ) = 4294967295 ∧
    int32val ((wordsRow 1 16 1 true c4Bps c4Vecs).getD 2 0) = -1 ∧
    int32val ((wordsRow 1 16 1 true c4Bps c4Vecs).getD 2 0)
      ≠ (createBigramWord 65535 65535 16 : ℤ) := by
  refine ⟨by decide, by decide, by decide, by decide, by decide⟩

/-- Two small windows for the C4 witness (`window_size = 1`, no int32
overflow). -/
def c4WitVecs : List (List ℚ) := [[5, -1], [0, 3]]

/-- Witness for the amended C4 at two windows of two coefficients
(`window_size = 1`, no int32 overflow). -/
theorem bigram_words_layout_witness :
    (wordsRow 3 6 1 true c10Bps c4WitVecs).length = 2 * c4WitVecs.length - 1 ∧
    (∀ w < c4WitVecs.length,
      (wordsRow 3 6 1 true c10Bps c4WitVecs).getD w 0
        = wrap32 (generateWord 3 (c4WitVecs.getD w []) c10Bps 0)) ∧
    (∀ w, 1 ≤ w → w < c4WitVecs.length →
      (wordsRow 3 6 1 true c10Bps c4WitVecs).getD (c4WitVecs.length + w - 1) 0
        = wrap32 (createBigramWord (generateWord 3 (c4WitVecs.getD w []) c10Bps 0)
            (wrap32 (generateWord 3 (c4WitVecs.getD (w - 1) []) c10Bps 0)) 6)) ∧
    (∀ w, 1 ≤ w → w < c4WitVecs.length →
      createBigramWord (generateWord 3 (c4WitVecs.getD w []) c10Bps 0)
          (wrap32 (generateWord 3 (c4WitVecs.getD (w - 1) []) c10Bps 0)) 6 < 2 ^ 31 →
      int32val ((wordsRow 3 6 1 true c10Bps c4WitVecs).getD (c4WitVecs.length + w - 1) 0)
        = (createBigramWord (generateWord 3 (c4WitVecs.getD w []) c10Bps 0)
            (wrap32 (generateWord 3 (c4WitVecs.getD (w - 1) []) c10Bps 0)) 6 : ℤ)) :=
  bigram_words_layout 3 6 1 c10Bps c4WitVecs (by decide) (by decide)

/-! ### C5: transform-time sliding windows (`_mft`) -/

/-- `_mft` line 557: `end = max(1, len(X[0]) - window_size + 1)`, computed
with Python (signed) integer arithmetic. -/
def mftEnd (L W : ℕ) : ℤ := max 1 ((L : ℤ) - W + 1)

/-- Number of coefficient vectors `_mft` produces per series
(`transformed` has shape `(n_instances, end, length)`). -/
def mftNumWindows (L W : ℕ) : ℕ := (mftEnd L W).toNat

/-- The sliding positions: window `w` covers samples `[w, w + W)` and the
update for window `w` reads `x[w + W - 1]` and `x[w - 1]` (stride 1). -/
def mftWindows (L W : ℕ) : List (ℕ × ℕ) :=
  (List.range (mftNumWindows L W)).map (fun w => (w, w + W))

/-- Window 0's exact transform reads the numpy slice `X[:, :window_size]`,
which covers `[0, min W L)` of a length-`L` series. -/
def mftFirstWindowLen (L W : ℕ) : ℕ := min W L

/-- C5: `transform` produces `L - W + 1` stride-1 sliding windows when
`W ≤ L`, and exactly one window spanning the whole series when `W ≥ L`. -/
theorem sliding_window_count (L W : ℕ) :
    (W ≤ L →
      (mftWindows L W).length = L - W + 1 ∧
      ∀ w < L - W + 1, (mftWindows L W).getD w (0, 0) = (w, w + W)) ∧
    (L ≤ W → (mftWindows L W).length = 1 ∧ mftFirstWindowLen L W = L) := by
  constructor
  · intro hWL
    have h1 : mftNumWindows L W = L - W + 1 := by
      rw [mftNumWindows, mftEnd]
      omega
    refine ⟨by simp [mftWindows, h1], ?_⟩
    intro w hw
    rw [mftWindows, getD_range_map _ (0, 0) _ w (by rw [h1]; omega)]
  · intro hLW
    have h1 : mftNumWindows L W = 1 := by
      rw [mftNumWindows, mftEnd]
      omega
    exact ⟨by simp [mftWindows, h1], by rw [mftFirstWindowLen]; omega⟩

/-- Witness for C5 at `L = 8, W = 4` (five windows) and `L = 3, W = 10`
(one whole-series window). -/
theorem sliding_window_count_witness :
    ((mftWindows 8 4).length = 8 - 4 + 1 ∧
      ∀ w < 8 - 4 + 1, (mftWindows 8 4).getD w (0, 0) = (w, w + 4)) ∧
    ((mftWindows 3 10).length = 1 ∧ mftFirstWindowLen 3 10 = 3) :=
  ⟨(sliding_window_count 8 4).1 (by decide), (sliding_window_count 3 10).2 (by decide)⟩

/-! ### C6: fit-time segmentation (`_binning_dft`) -/

/-- `num_windows_per_inst = math.ceil(series_length / window_size)` (the
float division is exact in the ranges of interest, so this is the exact
ceiling). -/
def numWindowsPerInst (L W : ℕ) : ℕ := (L + W - 1) / W

/-- Python slice-start resolution for `X[i, start:L]` with a possibly
negative `start` (as `start = series_length - window_size` is when
`window_size > L`): a negative start counts from the end of the series and
clamps at 0; a nonnegative start clamps at `L`. -/
def pySliceStart (s : ℤ) (L : ℕ) : ℕ :=
  if s < 0 then ((L : ℤ) + s).toNat else min s.toNat L

/-- The fit-time windows of `_binning_dft`: `ceil(L/W)` chunks obtained by
splitting at `W, 2W, …, (ceil(L/W)-1)·W` (the `np.linspace` values, which
are exactly these multiples), with the last chunk replaced by the slice
`X[i, L - W : L]`. -/
def binningWindows (L W : ℕ) : List (ℕ × ℕ) :=
  (List.range (numWindowsPerInst L W - 1)).map (fun j => (j * W, (j + 1) * W))
    ++ [(pySliceStart ((L : ℤ) - W) L, L)]

/-- C6 (amended): at fit time a length-`L` series is segmented into
`ceil(L/W)` windows; for `W ≤ L` all but the last are contiguous
`[jW, (j+1)W)` chunks of length `W` and the last is right-aligned,
covering the final `W` samples `[L-W, L)`.  For `W ≥ L` exactly one window
is produced, but it spans the whole series only when `W = L` or
`W ≥ 2L`; for `L < W < 2L` the negative-start Python slice makes it cover
only the final `W - L` samples. -/
theorem fit_segmentation_windows (L W : ℕ) (hW : 1 ≤ W) :
    (W ≤ L →
      (binningWindows L W).length = numWindowsPerInst L W ∧
      (∀ j < numWindowsPerInst L W - 1,
        (binningWindows L W).getD j (0, 0) = (j * W, (j + 1) * W)) ∧
      (binningWindows L W).getLastD (0, 0) = (L - W, L)) ∧
    (L ≤ W →
      (binningWindows L W).length = 1 ∧
      ((W = L ∨ 2 * L ≤ W) → binningWindows L W = [(0, L)]) ∧
      (L < W → W < 2 * L → binningWindows L W = [(2 * L - W, L)])) := by
  constructor
  · intro hWL
    have hL1 : 1 ≤ L := le_trans hW hWL
    have hn1 : 1 ≤ numWindowsPerInst L W := by
      rw [numWindowsPerInst, Nat.le_div_iff_mul_le (by omega)]
      omega
    refine ⟨?_, ?_, ?_⟩
    · simp only [binningWindows, List.length_append, List.length_map, List.length_range,
        List.length_singleton]
      omega
    · intro j hj
      rw [binningWindows, List.getD_append _ _ _ _ (by simpa using hj),
        getD_range_map _ (0, 0) _ j hj]
    · rw [binningWindows, List.getLastD_concat]
      have : pySliceStart ((L : ℤ) - W) L = L - W := by
        rw [pySliceStart, if_neg (by omega)]
        omega
      rw [this]
  · intro hLW
    have hn : numWindowsPerInst L W - 1 = 0 := by
      have : numWindowsPerInst L W ≤ 1 := by
        rw [numWindowsPerInst, Nat.div_le_iff_le_mul_add_pred (by omega)]
        omega
      omega
    refine ⟨?_, ?_, ?_⟩
    · simp [binningWindows, hn]
    · intro hcase
      have h0 : pySliceStart ((L : ℤ) - W) L = 0 := by
        rcases hcase with h | h
        · rw [pySliceStart, if_neg (by omega)]
          omega
        · rcases Nat.lt_or_ge L W with hlt | hge
          · rw [pySliceStart, if_pos (by omega)]
            omega
          · rw [pySliceStart, if_neg (by omega)]
            omega
      simp [binningWindows, hn, h0]
    · intro hlt h2L
      have : pySliceStart ((L : ℤ) - W) L = 2 * L - W := by
        rw [pySliceStart, if_pos (by omega)]
        omega
      simp [binningWindows, hn, this]

/-- C6 counterexample: for `L = 5, W = 6` (so `L < W < 2L`) the single
fit-time window is `[4, 5)` — the last sample only — not the whole series
`[0, 5)` the claim asserts for `window_size ≥ L`. -/
theorem fit_segmentation_windows_counterexample :
    binningWindows 5 6 = [(4, 5)] ∧ binningWindows 5 6 ≠ [(0, 5)] := by
  refine ⟨by decide, by decide⟩

/-- Witness for the amended C6 at `L = 8, W = 4` and `L = 5, W = 10`. -/
theorem fit_segmentation_windows_witness :
    ((binningWindows 8 4).length = numWindowsPerInst 8 4 ∧
      (∀ j < numWindowsPerInst 8 4 - 1,
        (binningWindows 8 4).getD j (0, 0) = (j * 4, (j + 1) * 4)) ∧
      (binningWindows 8 4).getLastD (0, 0) = (8 - 4, 8)) ∧
    ((binningWindows 5 10).length = 1 ∧
      ((10 = 5 ∨ 2 * 5 ≤ 10) → binningWindows 5 10 = [(0, 5)]) ∧
      (5 < 10 → 10 < 2 * 5 → binningWindows 5 10 = [(2 * 5 - 10, 5)])) :=
  ⟨(fit_segmentation_windows 8 4 (by decide)).1 (by decide),
    (fit_segmentation_windows 5 10 (by decide)).2 (by decide)⟩

/-! ### C8: configuration validation in `fit` -/

/-- The configuration errors `fit` can raise before touching the panel. -/
inductive FitError where
  | alphabetTooSmall : FitError
  | igNeedsLabels : FitError
  | anovaAndVariance : FitError
  | badBinningMethod : List String → FitError
deriving DecidableEq

/-- The recognized binning methods (module-level set, line 24). -/
def binningMethods : List String := ["equi-depth", "equi-width", "information-gain", "kmeans"]

/-- The four configuration checks at the top of `fit` (lines 156-168), in
source order, all raised before the input panel is used; the
`binning_method` error carries the valid set. -/
def fitValidate (alphabet_size : ℕ) (binning_method : String)
    (anova variance hasLabels : Bool) : Option FitError :=
  if alphabet_size < 2 then some .alphabetTooSmall
  else if binning_method = "information-gain" ∧ hasLabels = false then some .igNeedsLabels
  else if variance = true ∧ anova = true then some .anovaAndVariance
  else if binning_method ∉ binningMethods then some (.badBinningMethod binningMethods)
  else none

/-- Modelled from the spec: `transform` first calls `check_is_fitted`
(inherited from the base transformer, whose source is not part of this
core), which raises a not-fitted error iff `fit` has not run. -/
def transformGuard (isFitted : Bool) : Except String Unit :=
  if isFitted then .ok () else .error "not fitted"

/-- C8: `fit` raises a configuration error before any computation on the
panel iff `alphabet_size < 2`, or information-gain binning has no labels,
or `anova` and `variance` are both set, or `binning_method` is
unrecognized (that error listing the valid set); and `transform` before
`fit` raises a not-fitted error. -/
theorem fit_validation (a : ℕ) (m : String) (anova variance hasLabels : Bool) :
    ((fitValidate a m anova variance hasLabels).isSome ↔
      (a < 2 ∨ (m = "information-gain" ∧ hasLabels = false) ∨
        (anova = true ∧ variance = true) ∨ m ∉ binningMethods)) ∧
    (¬ a < 2 → ¬ (m = "information-gain" ∧ hasLabels = false) →
      ¬ (anova = true ∧ variance = true) → m ∉ binningMethods →
      fitValidate a m anova variance hasLabels
        = some (FitError.badBinningMethod binningMethods)) ∧
    transformGuard false = Except.error "not fitted" ∧
    transformGuard true = Except.ok () := by
  refine ⟨?_, ?_, rfl, rfl⟩
  · cases anova <;> cases variance <;> cases hasLabels <;>
      rw [fitValidate] <;> split_ifs with h1 h2 h3 h4 <;>
      simp_all [Bool.not_eq_true]
  · intro h1 h2 h3 h4
    rw [fitValidate, if_neg h1, if_neg h2, if_neg (by tauto), if_pos h4]

/-- Witness for C8: a too-small alphabet is rejected, an unrecognized
binning method yields the error that lists the valid set. -/
theorem fit_validation_witness :
    (fitValidate 1 "equi-depth" false false true).isSome ∧
    fitValidate 4 "quantile" false false true
      = some (FitError.badBinningMethod binningMethods) ∧
    transformGuard false = Except.error "not fitted" :=
  ⟨(fit_validation 1 "equi-depth" false false true).1.mpr (Or.inl (by decide)),
    (fit_validation 4 "quantile" false false true).2.1 (by decide) (by decide)
      (by decide) (by decide),
    (fit_validation 4 "quantile" false false true).2.2.1⟩

/-! ### Sorting helpers (`np.sort`) -/

/-- `np.sort` (ascending) via `mergeSort`; numpy's introsort produces the
same multiset in the same order for our purposes (only sortedness and the
multiset matter below). -/
def sortAsc {α : Type} [LinearOrder α] (l : List α) : List α :=
  l.mergeSort (fun x y => decide (x ≤ y))

theorem sortAsc_pairwise {α : Type} [LinearOrder α] (l : List α) :
    (sortAsc l).Pairwise (· ≤ ·) := by
  have h := @List.sorted_mergeSort α (fun x y => decide (x ≤ y))
    (by intro a b c h1 h2; simp only [decide_eq_true_eq] at *; exact le_trans h1 h2)
    (by intro a b; simpa [Bool.or_eq_true, decide_eq_true_eq] using le_total a b) l
  exact h.imp (by simp)

theorem sortAsc_perm {α : Type} [LinearOrder α] (l : List α) : (sortAsc l).Perm l :=
  List.mergeSort_perm l _

theorem sortAsc_length {α : Type} [LinearOrder α] (l : List α) :
    (sortAsc l).length = l.length :=
  (sortAsc_perm l).length_eq

theorem sorted_getD_le {α : Type} [LinearOrder α] (l : List α)
    (hs : l.Pairwise (· ≤ ·)) (i j : ℕ) (hij : i ≤ j) (hj : j < l.length) (d : α) :
    l.getD i d ≤ l.getD j d := by
  rcases eq_or_lt_of_le hij with rfl | hlt
  · exact le_refl _
  · rw [List.getD_eq_getElem l d (by omega), List.getD_eq_getElem l d hj]
    exact List.pairwise_iff_getElem.mp hs i j (by omega) hj hlt

theorem getD_mem {α : Type} (l : List α) (i : ℕ) (d : α) (h : i < l.length) :
    l.getD i d ∈ l := by
  rw [List.getD_eq_getElem l d h]
  exact List.getElem_mem h

theorem pairwise_getLastD_top (l : List Value) (hs : l.Pairwise (· ≤ ·))
    (ht : (⊤ : Value) ∈ l) : l.getLastD ⊤ = ⊤ := by
  obtain ⟨i, hi, hget⟩ := List.getElem_of_mem ht
  have hlen : 0 < l.length := by omega
  have h1 : l[l.length - 1]? = some l[l.length - 1] := List.getElem?_eq_getElem (by omega)
  rw [List.getLastD_eq_getLast?, List.getLast?_eq_getElem?, h1, Option.getD_some]
  by_cases hilast : i = l.length - 1
  · subst hilast
    exact hget
  · have hlt : i < l.length - 1 := by omega
    have := List.pairwise_iff_getElem.mp hs i (l.length - 1) hi (by omega) hlt
    rw [hget] at this
    exact top_le_iff.mp this

/-! ### Binning (`_mcb`, `_igb`, `_k_bins_discretizer`) -/

/-- `np.round` to 2 decimals rounds half to even. -/
def roundHalfEven (y : ℚ) : ℤ :=
  if y - ⌊y⌋ < 1/2 then ⌊y⌋
  else if 1/2 < y - ⌊y⌋ then ⌊y⌋ + 1
  else if ⌊y⌋ % 2 = 0 then ⌊y⌋ else ⌊y⌋ + 1

/-- `np.round(dft, 2)` on one value. -/
def round2 (q : ℚ) : ℚ := (roundHalfEven (q * 100) : ℚ) / 100

/-- Column `j` of the fit matrix (`dft[:, letter]`). -/
def column (m : List (List ℚ)) (j : ℕ) : List ℚ := m.map (fun r => r.getD j 0)

/-- `_mcb` equi-depth row for one letter: sort the 2-decimal-rounded
column, take `column[int(bin_index)]` where `bin_index` has accumulated
`(bp+1) · n/alphabet_size` (exact here, so `int()` truncation is floor,
i.e. natural division), and force the last slot to `sys.float_info.max`. -/
def mcbEquiDepthRow (a : ℕ) (col : List ℚ) : List Value :=
  let sorted := sortAsc (col.map round2)
  ((List.range (a - 1)).map (fun bp =>
      ((sorted.getD ((bp + 1) * col.length / a) 0 : ℚ) : Value)))
    ++ [((floatMax : ℚ) : Value)]

/-- `_mcb` equi-width row for one letter:
`breakpoints[letter, bp] = (bp+1) · (column[-1] - column[0])/alphabet_size
+ column[0]` over the sorted rounded column, last slot
`sys.float_info.max`. -/
def mcbEquiWidthRow (a : ℕ) (col : List ℚ) : List Value :=
  let sorted := sortAsc (col.map round2)
  let lo := sorted.getD 0 0
  let hi := sorted.getD (sorted.length - 1) 0
  ((List.range (a - 1)).map (fun (bp : ℕ) =>
      ((((bp : ℚ) + 1) * ((hi - lo) / a) + lo : ℚ) : Value)))
    ++ [((floatMax : ℚ) : Value)]

/-- `_igb` row for one letter: the thresholds of the fitted entropy
splitter (an external collaborator; `max_leaf_nodes = alphabet_size`
bounds their number by `alphabet_size - 1`), padded with `np.inf` to width
`alphabet_size`, then sorted row-wise (`np.sort(breakpoints, axis=1)`). -/
def igbRow (a : ℕ) (thresholds : List ℚ) : List Value :=
  sortAsc ((thresholds.map (fun (t : ℚ) => (t : Value)))
    ++ List.replicate (a - thresholds.length) ⊤)

/-- `_k_bins_discretizer` row for one letter.  `encoder.bin_edges_` is an
object ndarray of shape `(n_features,)`, so `bin_edges_.ndim == 1` always
holds and `breaks = bin_edges_.reshape((-1, 1))` has rows of length 1;
the interior-edge copy loop `for bp in range(1, len(breaks[letter]) - 1)`
is therefore never entered, and each row keeps the zeros it was
initialised with, plus `sys.float_info.max` in the last slot. -/
def kBinsRow (a : ℕ) : List Value :=
  List.replicate (a - 1) ((0 : ℚ) : Value) ++ [((floatMax : ℚ) : Value)]

/-- `_mcb` with `binning_method = "equi-depth"`: one row per letter. -/
def mcbEquiDepth (a wl : ℕ) (dft : List (List ℚ)) : List (List Value) :=
  (List.range wl).map (fun i => mcbEquiDepthRow a (column dft i))

/-- `_mcb` with `binning_method = "equi-width"`: one row per letter. -/
def mcbEquiWidth (a wl : ℕ) (dft : List (List ℚ)) : List (List Value) :=
  (List.range wl).map (fun i => mcbEquiWidthRow a (column dft i))

/-- `_igb`: one row per letter from that letter's fitted thresholds. -/
def igb (a wl : ℕ) (thresholds : List (List ℚ)) : List (List Value) :=
  (List.range wl).map (fun i => igbRow a (thresholds.getD i []))

/-- `_k_bins_discretizer`: one (degenerate) row per letter. -/
def kBins (a wl : ℕ) : List (List Value) :=
  (List.range wl).map (fun _ => kBinsRow a)

theorem mcbEquiDepthRow_last (a : ℕ) (col : List ℚ) :
    (mcbEquiDepthRow a col).getLastD ⊤ = ((floatMax : ℚ) : Value) := by
  rw [mcbEquiDepthRow, List.getLastD_concat]

theorem mcbEquiWidthRow_last (a : ℕ) (col : List ℚ) :
    (mcbEquiWidthRow a col).getLastD ⊤ = ((floatMax : ℚ) : Value) := by
  rw [mcbEquiWidthRow, List.getLastD_concat]

theorem kBinsRow_last (a : ℕ) :
    (kBinsRow a).getLastD ⊤ = ((floatMax : ℚ) : Value) := by
  rw [kBinsRow, List.getLastD_concat]

theorem floatMax_nonneg : (0 : ℚ) ≤ floatMax := by
  rw [floatMax]
  positivity

theorem sortAsc_round2_getD_bound (col : List ℚ) (hbound : ∀ v ∈ col, round2 v ≤ floatMax)
    (i : ℕ) (hi : i < (sortAsc (col.map round2)).length) :
    (sortAsc (col.map round2)).getD i 0 ≤ floatMax := by
  have hmem : (sortAsc (col.map round2)).getD i 0 ∈ sortAsc (col.map round2) :=
    getD_mem _ i 0 hi
  rw [(sortAsc_perm (col.map round2)).mem_iff, List.mem_map] at hmem
  obtain ⟨v, hv, hveq⟩ := hmem
  rw [← hveq]
  exact hbound v hv

/-! ### C3: breakpoint rows after fit -/

/-- C3 (amended): for every one of the four binning strategies, each
breakpoint row is non-decreasing from left to right; the last entry is
`+inf` for information-gain binning, but `sys.float_info.max` — the
largest finite double, a catch-all but not `+inf` — for equi-depth,
equi-width and kmeans binning.  `col` ranges over the columns of the fit
matrix (finite doubles, so their 2-decimal roundings are `≤ DBL_MAX`);
`thresholds` over the entropy splitter's thresholds (fewer than
`alphabet_size`, by its `max_leaf_nodes` bound); the kmeans rows carry no
data at all (the interior-edge copy loop of `_k_bins_discretizer` is
dead), just zeros and the sentinel. -/
theorem breakpoint_rows_sorted (a : ℕ) (ha : 2 ≤ a) (col thresholds : List ℚ) :
    (1 ≤ col.length → (∀ v ∈ col, round2 v ≤ floatMax) →
      (mcbEquiDepthRow a col).Pairwise (· ≤ ·) ∧
      (mcbEquiDepthRow a col).getLastD ⊤ = ((floatMax : ℚ) : Value)) ∧
    (1 ≤ col.length → (∀ v ∈ col, round2 v ≤ floatMax) →
      (mcbEquiWidthRow a col).Pairwise (· ≤ ·) ∧
      (mcbEquiWidthRow a col).getLastD ⊤ = ((floatMax : ℚ) : Value)) ∧
    (thresholds.length < a →
      (igbRow a thresholds).Pairwise (· ≤ ·) ∧ (igbRow a thresholds).getLastD ⊤ = ⊤) ∧
    ((kBinsRow a).Pairwise (· ≤ ·) ∧
      (kBinsRow a).getLastD ⊤ = ((floatMax : ℚ) : Value)) := by
  have haq : (0 : ℚ) < a := by positivity
  refine ⟨?_, ?_, ?_, ?_⟩
  · -- equi-depth
    intro hcol hbound
    refine ⟨?_, mcbEquiDepthRow_last a col⟩
    have hslen : (sortAsc (col.map round2)).length = col.length := by
      rw [sortAsc_length, List.length_map]
    have hidx : ∀ bp, bp < a - 1 → (bp + 1) * col.length / a < col.length := by
      intro bp hbp
      rw [Nat.div_lt_iff_lt_mul (by omega : 0 < a)]
      calc (bp + 1) * col.length ≤ (a - 1) * col.length :=
            Nat.mul_le_mul_right _ (by omega)
        _ < a * col.length :=
            (Nat.mul_lt_mul_right (by omega : 0 < col.length)).mpr (by omega)
        _ = col.length * a := Nat.mul_comm _ _
    rw [mcbEquiDepthRow, List.pairwise_append]
    refine ⟨?_, by simp, ?_⟩
    · rw [List.pairwise_iff_getElem]
      intro i j hi hj hij
      simp only [List.length_map, List.length_range] at hi hj
      simp only [List.getElem_map, List.getElem_range]
      rw [WithTop.coe_le_coe]
      exact sorted_getD_le _ (sortAsc_pairwise _) _ _
        (Nat.div_le_div_right (Nat.mul_le_mul_right _ (by omega)))
        (by rw [hslen]; exact hidx j hj) 0
    · intro x hx y hy
      rw [List.mem_singleton] at hy
      subst hy
      rw [List.mem_map] at hx
      obtain ⟨bp, hbp, hbpx⟩ := hx
      rw [List.mem_range] at hbp
      rw [← hbpx, WithTop.coe_le_coe]
      exact sortAsc_round2_getD_bound col hbound _ (by rw [hslen]; exact hidx bp hbp)
  · -- equi-width
    intro hcol hbound
    refine ⟨?_, mcbEquiWidthRow_last a col⟩
    have hslen : (sortAsc (col.map round2)).length = col.length := by
      rw [sortAsc_length, List.length_map]
    have hlohi : (sortAsc (col.map round2)).getD 0 0
        ≤ (sortAsc (col.map round2)).getD ((sortAsc (col.map round2)).length - 1) 0 :=
      sorted_getD_le _ (sortAsc_pairwise _) 0 _ (by omega) (by omega) 0
    have hhiM : (sortAsc (col.map round2)).getD ((sortAsc (col.map round2)).length - 1) 0
        ≤ floatMax :=
      sortAsc_round2_getD_bound col hbound _ (by omega)
    have hw0 : (0 : ℚ) ≤ ((sortAsc (col.map round2)).getD ((sortAsc (col.map round2)).length - 1) 0
        - (sortAsc (col.map round2)).getD 0 0) / a :=
      div_nonneg (by linarith) (le_of_lt haq)
    rw [mcbEquiWidthRow, List.pairwise_append]
    refine ⟨?_, by simp, ?_⟩
    · rw [List.pairwise_iff_getElem]
      intro i j hi hj hij
      simp only [List.length_map, List.length_range] at hi hj
      simp only [List.getElem_map, List.getElem_range]
      rw [WithTop.coe_le_coe]
      have hcast : (i : ℚ) + 1 ≤ (j : ℚ) + 1 := by
        have : (i : ℚ) ≤ j := by exact_mod_cast le_of_lt hij
        linarith
      nlinarith [hw0, hcast]
    · intro x hx y hy
      rw [List.mem_singleton] at hy
      subst hy
      rw [List.mem_map] at hx
      obtain ⟨bp, hbp, hbpx⟩ := hx
      rw [List.mem_range] at hbp
      rw [← hbpx, WithTop.coe_le_coe]
      have hbpa : (bp : ℚ) + 1 ≤ a := by
        have : bp + 1 ≤ a := by omega
        exact_mod_cast this
      have had : (a : ℚ) * (((sortAsc (col.map round2)).getD ((sortAsc (col.map round2)).length - 1) 0
          - (sortAsc (col.map round2)).getD 0 0) / a)
          = (sortAsc (col.map round2)).getD ((sortAsc (col.map round2)).length - 1) 0
            - (sortAsc (col.map round2)).getD 0 0 := by
        field_simp
      nlinarith [hw0, hbpa, had, hhiM, hlohi]
  · -- information gain
    intro hth
    refine ⟨sortAsc_pairwise _, ?_⟩
    apply pairwise_getLastD_top _ (sortAsc_pairwise _)
    rw [(sortAsc_perm _).mem_iff, List.mem_append]
    right
    rw [List.mem_replicate]
    exact ⟨by omega, rfl⟩
  · -- kmeans
    refine ⟨?_, kBinsRow_last a⟩
    rw [kBinsRow, List.pairwise_append]
    refine ⟨?_, by simp, ?_⟩
    · rw [List.pairwise_iff_getElem]
      intro i j hi hj hij
      simp only [List.getElem_replicate]
      exact le_refl _
    · intro x hx y hy
      rw [List.mem_singleton] at hy
      subst hy
      rw [List.mem_replicate] at hx
      rw [hx.2, WithTop.coe_le_coe]
      exact floatMax_nonneg

/-- C3 counterexample: for equi-depth binning on the one-window fit column
`[0]` with `alphabet_size = 2`, the last breakpoint entry equals
`sys.float_info.max`, which is not `+inf`. -/
theorem breakpoint_rows_sorted_counterexample :
    (mcbEquiDepthRow 2 [0]).getLastD ⊤ = ((floatMax : ℚ) : Value) ∧
    ((floatMax : ℚ) : Value) ≠ (⊤ : Value) :=
  ⟨mcbEquiDepthRow_last 2 [0], WithTop.coe_ne_top⟩

theorem c3_round2_bound : ∀ v ∈ ([0] : List ℚ), round2 v ≤ floatMax := by
  intro v hv
  rw [List.mem_singleton] at hv
  subst hv
  rw [round2, roundHalfEven, floatMax]
  norm_num

/-- Witness for the amended C3 at `alphabet_size = 2`, fit column `[0]`,
no thresholds. -/
theorem breakpoint_rows_sorted_witness :
    ((mcbEquiDepthRow 2 [0]).Pairwise (· ≤ ·) ∧
      (mcbEquiDepthRow 2 [0]).getLastD ⊤ = ((floatMax : ℚ) : Value)) ∧
    ((mcbEquiWidthRow 2 [0]).Pairwise (· ≤ ·) ∧
      (mcbEquiWidthRow 2 [0]).getLastD ⊤ = ((floatMax : ℚ) : Value)) ∧
    ((igbRow 2 []).Pairwise (· ≤ ·) ∧ (igbRow 2 []).getLastD ⊤ = ⊤) ∧
    ((kBinsRow 2).Pairwise (· ≤ ·) ∧
      (kBinsRow 2).getLastD ⊤ = ((floatMax : ℚ) : Value)) :=
  ⟨(breakpoint_rows_sorted 2 (by norm_num) [0] []).1 (by decide) c3_round2_bound,
    (breakpoint_rows_sorted 2 (by norm_num) [0] []).2.1 (by decide) c3_round2_bound,
    (breakpoint_rows_sorted 2 (by norm_num) [0] []).2.2.1 (by decide),
    (breakpoint_rows_sorted 2 (by norm_num) [0] []).2.2.2⟩

/-! ### C7: variance-based coefficient selection (`_binning`) -/

/-- `np.var(dft, axis=0)` (population variance) of column `j` of the fit
matrix. -/
def colVariance (m : List (List ℚ)) (j : ℕ) : ℚ :=
  let col := column m j
  let μ := col.sum / col.length
  ((col.map (fun v => (v - μ) ^ 2)).sum) / col.length

/-- `np.argsort(-dft_variance)`: the column indices sorted by decreasing
variance.  numpy's introsort breaks ties in an unspecified deterministic
order; ties break here by index, which yields the same top-`k` guarantee. -/
def argsortVarianceDesc (m : List (List ℚ)) (cols : ℕ) : List ℕ :=
  (List.range cols).mergeSort (fun i j =>
    decide (colVariance m j < colVariance m i
      ∨ (colVariance m i = colVariance m j ∧ i ≤ j)))

/-- The variance-selection step of `_binning` (lines 232-245): when
`variance` is set **and labels were supplied**, take the `word_length`
indices of largest variance (`np.argsort(-dft_variance)[:word_length]`),
sort them ascending, and recompute `dft_length = np.max(support) + 1`
rounded up to even; otherwise the branch is skipped and the initial
`support = np.arange(word_length)` and `dft_length` are kept. -/
def binningSelect (m : List (List ℚ)) (cols wl dftLen : ℕ) (variance hasY : Bool) :
    List ℕ × ℕ :=
  if variance = true ∧ hasY = true then
    let sup := sortAsc ((argsortVarianceDesc m cols).take wl)
    let d := sup.foldr max 0 + 1
    (sup, d + d % 2)
  else (List.range wl, dftLen)

theorem argsortVarianceDesc_pairwise (m : List (List ℚ)) (cols : ℕ) :
    (argsortVarianceDesc m cols).Pairwise (fun i j =>
      colVariance m j < colVariance m i
        ∨ (colVariance m i = colVariance m j ∧ i ≤ j)) := by
  have h := @List.sorted_mergeSort ℕ
    (fun i j => decide (colVariance m j < colVariance m i
      ∨ (colVariance m i = colVariance m j ∧ i ≤ j)))
    (by
      intro x y z h1 h2
      simp only [decide_eq_true_eq] at *
      rcases h1 with h1 | ⟨h1e, h1le⟩
      · rcases h2 with h2 | ⟨h2e, h2le⟩
        · exact Or.inl (lt_trans h2 h1)
        · exact Or.inl (h2e ▸ h1)
      · rcases h2 with h2 | ⟨h2e, h2le⟩
        · exact Or.inl (by rw [h1e]; exact h2)
        · exact Or.inr ⟨h1e.trans h2e, le_trans h1le h2le⟩)
    (by
      intro x y
      simp only [Bool.or_eq_true, decide_eq_true_eq]
      rcases lt_trichotomy (colVariance m x) (colVariance m y) with hlt | heq | hgt
      · exact Or.inr (Or.inl hlt)
      · rcases le_total x y with hxy | hyx
        · exact Or.inl (Or.inr ⟨heq, hxy⟩)
        · exact Or.inr (Or.inr ⟨heq.symm, hyx⟩)
      · exact Or.inl (Or.inl hgt))
    (List.range cols)
  exact h.imp (by simp)

theorem argsortVarianceDesc_perm (m : List (List ℚ)) (cols : ℕ) :
    (argsortVarianceDesc m cols).Perm (List.range cols) :=
  List.mergeSort_perm _ _

/-- C7 (amended): for every fit with `variance=True` **and labels
supplied**, the stored support is a sorted-ascending, duplicate-free list
of `word_length` column indices such that every selected index has
variance at least that of every unselected index, and the stored
`dft_length` becomes `max(support) + 1` rounded up to even. -/
theorem variance_selection (m : List (List ℚ)) (cols wl dftLen : ℕ)
    (hwl : 1 ≤ wl) (hcols : wl ≤ cols) :
    (binningSelect m cols wl dftLen true true).1.length = wl ∧
    (binningSelect m cols wl dftLen true true).1.Pairwise (· ≤ ·) ∧
    (binningSelect m cols wl dftLen true true).1.Nodup ∧
    (∀ i ∈ (binningSelect m cols wl dftLen true true).1, i < cols) ∧
    (∀ i ∈ (binningSelect m cols wl dftLen true true).1, ∀ j < cols,
      j ∉ (binningSelect m cols wl dftLen true true).1 →
      colVariance m j ≤ colVariance m i) ∧
    (binningSelect m cols wl dftLen true true).2 % 2 = 0 ∧
    (binningSelect m cols wl dftLen true true).1.foldr max 0 + 1
      ≤ (binningSelect m cols wl dftLen true true).2 ∧
    (binningSelect m cols wl dftLen true true).2
      ≤ (binningSelect m cols wl dftLen true true).1.foldr max 0 + 2 := by
  have hsup : (binningSelect m cols wl dftLen true true).1
      = sortAsc ((argsortVarianceDesc m cols).take wl) := rfl
  have hd : (binningSelect m cols wl dftLen true true).2
      = (sortAsc ((argsortVarianceDesc m cols).take wl)).foldr max 0 + 1
        + ((sortAsc ((argsortVarianceDesc m cols).take wl)).foldr max 0 + 1) % 2 := rfl
  have hlen : (argsortVarianceDesc m cols).length = cols := by
    rw [(argsortVarianceDesc_perm m cols).length_eq, List.length_range]
  have hmemsup : ∀ i, i ∈ (binningSelect m cols wl dftLen true true).1
      ↔ i ∈ (argsortVarianceDesc m cols).take wl := by
    intro i
    rw [hsup, (sortAsc_perm _).mem_iff]
  refine ⟨?_, ?_, ?_, ?_, ?_, ?_, ?_, ?_⟩
  · rw [hsup, sortAsc_length, List.length_take, hlen]
    omega
  · rw [hsup]
    exact sortAsc_pairwise _
  · rw [hsup, (sortAsc_perm _).nodup_iff]
    exact ((argsortVarianceDesc_perm m cols).nodup_iff.mpr (List.nodup_range cols)).sublist
      (List.take_sublist _ _)
  · intro i hi
    rw [hmemsup] at hi
    have : i ∈ argsortVarianceDesc m cols := (List.take_sublist _ _).subset hi
    rw [(argsortVarianceDesc_perm m cols).mem_iff, List.mem_range] at this
    exact this
  · intro i hi j hj hjnot
    rw [hmemsup] at hi
    rw [hmemsup] at hjnot
    have hjin : j ∈ argsortVarianceDesc m cols := by
      rw [(argsortVarianceDesc_perm m cols).mem_iff, List.mem_range]
      exact hj
    have hjdrop : j ∈ (argsortVarianceDesc m cols).drop wl := by
      have hjsplit : j ∈ (argsortVarianceDesc m cols).take wl
          ++ (argsortVarianceDesc m cols).drop wl := by
        rw [List.take_append_drop]
        exact hjin
      rcases List.mem_append.mp hjsplit with h | h
      · exact absurd h hjnot
      · exact h
    have hpair := argsortVarianceDesc_pairwise m cols
    rw [← List.take_append_drop wl (argsortVarianceDesc m cols),
      List.pairwise_append] at hpair
    rcases hpair.2.2 i hi j hjdrop with h | ⟨he, _⟩
    · exact le_of_lt h
    · exact le_of_eq he.symm
  · rw [hd]
    omega
  · rw [hd, hsup]
    omega
  · rw [hd, hsup]
    omega

/-- Fit matrix for the C7 counterexample: column 0 is constant (variance
0), column 1 has variance 25. -/
def c7Dft : List (List ℚ) := [[0, 5], [0, -5]]

/-- C7 counterexample: with `variance=True` but **no labels** (`y=None`),
the variance branch of `_binning` is skipped: the support stays
`np.arange(word_length) = [0]` — omitting column 1, the unique
largest-variance column — and `dft_length` keeps its initial value `6`. -/
theorem variance_selection_counterexample :
    (binningSelect c7Dft 2 1 6 true false).1 = [0] ∧
    (binningSelect c7Dft 2 1 6 true false).2 = 6 ∧
    colVariance c7Dft 0 < colVariance c7Dft 1 ∧
    (1 : ℕ) ∉ (binningSelect c7Dft 2 1 6 true false).1 := by
  refine ⟨rfl, rfl, ?_, by decide⟩
  norm_num [colVariance, column, c7Dft]

/-- Witness for the amended C7 at the concrete fit matrix `c7Dft`,
`word_length = 1`. -/
theorem variance_selection_witness :
    (binningSelect c7Dft 2 1 6 true true).1.length = 1 ∧
    (binningSelect c7Dft 2 1 6 true true).1.Pairwise (· ≤ ·) ∧
    (binningSelect c7Dft 2 1 6 true true).1.Nodup ∧
    (∀ i ∈ (binningSelect c7Dft 2 1 6 true true).1, i < 2) ∧
    (∀ i ∈ (binningSelect c7Dft 2 1 6 true true).1, ∀ j < 2,
      j ∉ (binningSelect c7Dft 2 1 6 true true).1 →
      colVariance c7Dft j ≤ colVariance c7Dft i) ∧
    (binningSelect c7Dft 2 1 6 true true).2 % 2 = 0 ∧
    (binningSelect c7Dft 2 1 6 true true).1.foldr max 0 + 1
      ≤ (binningSelect c7Dft 2 1 6 true true).2 ∧
    (binningSelect c7Dft 2 1 6 true true).2
      ≤ (binningSelect c7Dft 2 1 6 true true).1.foldr max 0 + 2 :=
  variance_selection c7Dft 2 1 6 (by decide) (by decide)

/-! ### C1: the incremental MFT equals a direct transform per window

The floating-point arithmetic of `_mft` and `_fast_fourier_transform` is
modelled over exact reals; the spec's claim (equality up to `1e-9`) is the
refinement this development settles by proving exact equality. -/

/-- `exp(i t)` for a real angle `t`. -/
noncomputable def cexpI (t : ℝ) : ℂ := Complex.exp ((t : ℂ) * Complex.I)

theorem cexpI_add (s t : ℝ) : cexpI (s + t) = cexpI s * cexpI t := by
  rw [cexpI, cexpI, cexpI, ← Complex.exp_add]
  push_cast
  ring_nf

theorem cexpI_re (t : ℝ) : (cexpI t).re = Real.cos t := by
  rw [cexpI, Complex.exp_mul_I]
  simp [Complex.add_re, Complex.mul_re, Complex.I_re, Complex.I_im,
    Complex.cos_ofReal_re, Complex.sin_ofReal_im]

theorem cexpI_im (t : ℝ) : (cexpI t).im = Real.sin t := by
  rw [cexpI, Complex.exp_mul_I]
  simp [Complex.add_im, Complex.mul_im, Complex.I_re, Complex.I_im,
    Complex.sin_ofReal_re, Complex.cos_ofReal_im]

theorem cexpI_neg_two_pi_mul_nat (k : ℕ) : cexpI (-(2 * Real.pi * k)) = 1 := by
  rw [cexpI]
  have h : ((-(2 * Real.pi * k) : ℝ) : ℂ) * Complex.I
      = ((-(k : ℤ) : ℤ) : ℂ) * (2 * (Real.pi : ℂ) * Complex.I) := by
    push_cast
    ring
  rw [h, Complex.exp_int_mul_two_pi_mul_I]

/-- Real part of `np.fft.rfft` bin `k` of the window `[w, w+W)`
(`X_k = Σ_j x_j e^{-2πijk/W}`). -/
noncomputable def dftRe (x : ℕ → ℝ) (W w k : ℕ) : ℝ :=
  ∑ j in Finset.range W, x (w + j) * Real.cos (2 * Real.pi * k * j / W)

/-- Imaginary part of `np.fft.rfft` bin `k` of the window `[w, w+W)`. -/
noncomputable def dftIm (x : ℕ → ℝ) (W w k : ℕ) : ℝ :=
  -∑ j in Finset.range W, x (w + j) * Real.sin (2 * Real.pi * k * j / W)

/-- Bin `k` of the transform of window `[w, w+W)` as one complex number. -/
noncomputable def dftC (x : ℕ → ℝ) (W w k : ℕ) : ℂ :=
  ∑ j in Finset.range W, (x (w + j) : ℂ) * cexpI (-(2 * Real.pi * k * j / W))

/-- `_get_phis` even slots: `phis[2k] = cos((-k) · 2π/W)`. -/
noncomputable def phiCos (W k : ℕ) : ℝ := Real.cos (-(k : ℝ) * (2 * Real.pi / W))

/-- `_get_phis` odd slots: `phis[2k+1] = -sin((-k) · 2π/W)`. -/
noncomputable def phiSin (W k : ℕ) : ℝ := -Real.sin (-(k : ℝ) * (2 * Real.pi / W))

/-- The incremental recurrence of `_mft` for coefficient pair `k`: window
0 from the exact transform of `X[:, :window_size]`; then
`adj = real + x[w+W-1] - x[w-1]`,
`real ← adj·phis[2k] - imag·phis[2k+1]`,
`imag ← adj·phis[2k+1] + phis[2k]·imag`. -/
noncomputable def mftPair (x : ℕ → ℝ) (W k : ℕ) : ℕ → ℝ × ℝ
  | 0 => (dftRe x W 0 k, dftIm x W 0 k)
  | w + 1 =>
      let p := mftPair x W k w
      let adj := p.1 + x (w + W) - x w
      (adj * phiCos W k - p.2 * phiSin W k, adj * phiSin W k + phiCos W k * p.2)

/-- `_calc_incremental_mean_std`: the running window sum and square sum. -/
noncomputable def incSums (x : ℕ → ℝ) (W : ℕ) : ℕ → ℝ × ℝ
  | 0 => (∑ j in Finset.range W, x j, ∑ j in Finset.range W, x j * x j)
  | w + 1 =>
      let p := incSums x W w
      (p.1 + x (w + W) - x w, p.2 + x (w + W) * x (w + W) - x w * x w)

/-- The clamped incremental std of `_calc_incremental_mean_std`:
`buf = sqrt(square_sum/W - mean²)`, `buf if buf > 1e-8 else 1e-8`. -/
noncomputable def mftStd (x : ℕ → ℝ) (W w : ℕ) : ℝ :=
  let p := incSums x W w
  let mean := p.1 * (1 / (W : ℝ))
  let buf := Real.sqrt (p.2 * (1 / (W : ℝ)) - mean * mean)
  if 1e-8 < buf then buf else 1e-8

/-- `np.std` of window `[w, w+W)` with the `np.where(std < 1e-8, 1e-8, std)`
clamp of `_fast_fourier_transform`. -/
noncomputable def directStd (x : ℕ → ℝ) (W w : ℕ) : ℝ :=
  let μ := (∑ j in Finset.range W, x (w + j)) / W
  let s := Real.sqrt ((∑ j in Finset.range W, (x (w + j) - μ) ^ 2) / W)
  if s < 1e-8 then 1e-8 else s

/-- `inverse_sqrt_win_size = 1/sqrt(window_size)`. -/
noncomputable def invSqrtWin (W : ℕ) : ℝ := 1 / Real.sqrt W

/-- Normalized MFT output, real slot `2k` of window `w`
(`transformed2 * inverse_sqrt_win_size / stds`). -/
noncomputable def mftNormRe (x : ℕ → ℝ) (W k w : ℕ) : ℝ :=
  (mftPair x W k w).1 * invSqrtWin W / mftStd x W w

/-- Normalized MFT output, imaginary slot `2k+1` of window `w`. -/
noncomputable def mftNormIm (x : ℕ → ℝ) (W k w : ℕ) : ℝ :=
  (mftPair x W k w).2 * invSqrtWin W / mftStd x W w

/-- Normalized direct transform of window `w`
(`dft / stds * inverse_sqrt_win_size` in `_fast_fourier_transform`). -/
noncomputable def directNormRe (x : ℕ → ℝ) (W k w : ℕ) : ℝ :=
  dftRe x W w k / directStd x W w * invSqrtWin W

/-- Normalized direct transform, imaginary slot. -/
noncomputable def directNormIm (x : ℕ → ℝ) (W k w : ℕ) : ℝ :=
  dftIm x W w k / directStd x W w * invSqrtWin W

/-- The spec scenario series `[1, 2, 3, 4, 5, 6, 7, 8]` (as a function;
window 1 of width 4 covers `[2, 3, 4, 5]`). -/
noncomputable def demoSeries : ℕ → ℝ := fun n => (n : ℝ) + 1

theorem dftC_re (x : ℕ → ℝ) (W w k : ℕ) : (dftC x W w k).re = dftRe x W w k := by
  rw [dftC, dftRe, Complex.re_sum]
  refine Finset.sum_congr rfl (fun j _ => ?_)
  rw [Complex.mul_re, cexpI_re, cexpI_im, Complex.ofReal_re, Complex.ofReal_im,
    Real.cos_neg]
  ring

theorem dftC_im (x : ℕ → ℝ) (W w k : ℕ) : (dftC x W w k).im = dftIm x W w k := by
  rw [dftC, dftIm, Complex.im_sum, ← Finset.sum_neg_distrib]
  refine Finset.sum_congr rfl (fun j _ => ?_)
  rw [Complex.mul_im, cexpI_re, cexpI_im, Complex.ofReal_re, Complex.ofReal_im,
    Real.sin_neg]
  ring

/-- The shift theorem: the transform of window `w+1` is the transform of
window `w`, corrected by the entering/leaving samples and rotated by
`e^{2πik/W}`. -/
theorem dftC_shift (x : ℕ → ℝ) (W k w : ℕ) (hW : 1 ≤ W) :
    dftC x W (w + 1) k
      = cexpI (2 * Real.pi * k / W)
        * (dftC x W w k + (x (w + W) : ℂ) - (x w : ℂ)) := by
  obtain ⟨V, rfl⟩ : ∃ V, W = V + 1 := ⟨W - 1, by omega⟩
  rw [dftC, dftC, Finset.sum_range_succ, Finset.sum_range_succ']
  have hterm : ∀ j : ℕ,
      cexpI (2 * Real.pi * k / (V + 1 : ℕ))
          * ((x (w + (j + 1)) : ℂ) * cexpI (-(2 * Real.pi * k * (j + 1 : ℕ) / (V + 1 : ℕ))))
        = (x (w + 1 + j) : ℂ) * cexpI (-(2 * Real.pi * k * (j : ℕ) / (V + 1 : ℕ))) := by
    intro j
    have hidx : w + (j + 1) = w + 1 + j := by omega
    have hang : (-(2 * Real.pi * k * (j : ℕ) / (V + 1 : ℕ)))
        = 2 * Real.pi * k / (V + 1 : ℕ)
          + (-(2 * Real.pi * k * (j + 1 : ℕ) / (V + 1 : ℕ))) := by
      push_cast
      ring
    rw [hidx, hang, cexpI_add]
    ring
  have hlast : (x (w + 1 + V) : ℂ) * cexpI (-(2 * Real.pi * k * (V : ℕ) / (V + 1 : ℕ)))
      = cexpI (2 * Real.pi * k / (V + 1 : ℕ)) * (x (w + (V + 1)) : ℂ) := by
    have hidx : w + 1 + V = w + (V + 1) := by omega
    have hang : (-(2 * Real.pi * k * (V : ℕ) / (V + 1 : ℕ)))
        = 2 * Real.pi * k / (V + 1 : ℕ) + (-(2 * Real.pi * (k : ℕ))) := by
      push_cast
      field_simp
      ring
    rw [hidx, hang, cexpI_add, cexpI_neg_two_pi_mul_nat]
    ring
  have hzero : cexpI (-(2 * Real.pi * k * (0 : ℕ) / (V + 1 : ℕ))) = 1 := by
    norm_num [cexpI]
  rw [hzero]
  calc (∑ j in Finset.range V,
          (x (w + 1 + j) : ℂ) * cexpI (-(2 * Real.pi * k * (j : ℕ) / (V + 1 : ℕ))))
        + (x (w + 1 + V) : ℂ) * cexpI (-(2 * Real.pi * k * (V : ℕ) / (V + 1 : ℕ)))
      = (∑ j in Finset.range V, cexpI (2 * Real.pi * k / (V + 1 : ℕ))
          * ((x (w + (j + 1)) : ℂ)
            * cexpI (-(2 * Real.pi * k * (j + 1 : ℕ) / (V + 1 : ℕ)))))
        + cexpI (2 * Real.pi * k / (V + 1 : ℕ)) * (x (w + (V + 1)) : ℂ) := by
        rw [Finset.sum_congr rfl (fun j _ => (hterm j).symm), hlast]
    _ = cexpI (2 * Real.pi * k / (V + 1 : ℕ))
        * ((∑ j in Finset.range V, (x (w + (j + 1)) : ℂ)
            * cexpI (-(2 * Real.pi * k * (j + 1 : ℕ) / (V + 1 : ℕ))) + (x (w + 0) : ℂ) * 1)
          + (x (w + (V + 1)) : ℂ) - (x w : ℂ)) := by
        rw [← Finset.mul_sum]
        simp only [Nat.add_zero, mul_one]
        ring

theorem phiCos_eq (W k : ℕ) : phiCos W k = Real.cos (2 * Real.pi * k / W) := by
  have h : (-(k : ℝ)) * (2 * Real.pi / W) = -(2 * Real.pi * k / W) := by ring
  rw [phiCos, h, Real.cos_neg]

theorem phiSin_eq (W k : ℕ) : phiSin W k = Real.sin (2 * Real.pi * k / W) := by
  have h : (-(k : ℝ)) * (2 * Real.pi / W) = -(2 * Real.pi * k / W) := by ring
  rw [phiSin, h, Real.sin_neg, neg_neg]

/-- The incremental phase-rotation recurrence reproduces the direct
transform of every window exactly. -/
theorem mftPair_eq_dftC (x : ℕ → ℝ) (W k : ℕ) (hW : 1 ≤ W) (w : ℕ) :
    mftPair x W k w = ((dftC x W w k).re, (dftC x W w k).im) := by
  induction w with
  | zero =>
      rw [mftPair, dftC_re, dftC_im]
  | succ w ih =>
      rw [mftPair, ih, dftC_shift x W k w hW, phiCos_eq, phiSin_eq]
      rw [Prod.mk.injEq]
      constructor
      · simp only [Complex.mul_re, Complex.add_re, Complex.sub_re, Complex.ofReal_re,
          Complex.add_im, Complex.sub_im, Complex.ofReal_im, cexpI_re, cexpI_im]
        ring
      · simp only [Complex.mul_im, Complex.add_re, Complex.sub_re, Complex.ofReal_re,
          Complex.add_im, Complex.sub_im, Complex.ofReal_im, cexpI_re, cexpI_im]
        ring

theorem sum_window_shift (f : ℕ → ℝ) (W w : ℕ) :
    ∑ j in Finset.range W, f (w + 1 + j)
      = (∑ j in Finset.range W, f (w + j)) + f (w + W) - f w := by
  have h1 := Finset.sum_range_succ (fun j => f (w + j)) W
  have h2 := Finset.sum_range_succ' (fun j => f (w + j)) W
  have h3 : ∑ j in Finset.range W, f (w + (j + 1))
      = ∑ j in Finset.range W, f (w + 1 + j) :=
    Finset.sum_congr rfl (fun j _ => congrArg f (by omega))
  simp only [Nat.add_zero] at h2
  linarith [h1, h2, h3]

/-- The running sums of `_calc_incremental_mean_std` equal the window sums.
-/
theorem incSums_eq (x : ℕ → ℝ) (W w : ℕ) :
    incSums x W w
      = (∑ j in Finset.range W, x (w + j),
         ∑ j in Finset.range W, x (w + j) * x (w + j)) := by
  induction w with
  | zero =>
      rw [incSums]
      simp
  | succ w ih =>
      rw [incSums, ih, Prod.mk.injEq]
      constructor
      · rw [sum_window_shift x W w]
      · rw [sum_window_shift (fun t => x t * x t) W w]

theorem variance_formula (x : ℕ → ℝ) (W w : ℕ) (hW : 1 ≤ W) :
    (∑ j in Finset.range W, x (w + j) * x (w + j)) * (1 / (W : ℝ))
      - ((∑ j in Finset.range W, x (w + j)) * (1 / (W : ℝ)))
        * ((∑ j in Finset.range W, x (w + j)) * (1 / (W : ℝ)))
      = (∑ j in Finset.range W,
          (x (w + j) - (∑ i in Finset.range W, x (w + i)) / W) ^ 2) / W := by
  have hW0 : (W : ℝ) ≠ 0 := Nat.cast_ne_zero.mpr (by omega)
  have hexp : ∑ j in Finset.range W,
      (x (w + j) - (∑ i in Finset.range W, x (w + i)) / W) ^ 2
      = (∑ j in Finset.range W, x (w + j) * x (w + j))
        - 2 * ((∑ i in Finset.range W, x (w + i)) / W) * (∑ i in Finset.range W, x (w + i))
        + W * ((∑ i in Finset.range W, x (w + i)) / W) ^ 2 := by
    have hstep : ∀ j ∈ Finset.range W,
        (x (w + j) - (∑ i in Finset.range W, x (w + i)) / W) ^ 2
          = x (w + j) * x (w + j)
            - 2 * ((∑ i in Finset.range W, x (w + i)) / W) * x (w + j)
            + ((∑ i in Finset.range W, x (w + i)) / W) ^ 2 := fun j _ => by ring
    rw [Finset.sum_congr rfl hstep, Finset.sum_add_distrib, Finset.sum_sub_distrib,
      ← Finset.mul_sum, Finset.sum_const, Finset.card_range, nsmul_eq_mul]
  rw [hexp]
  field_simp
  ring

/-- The incrementally maintained, clamped std of `_mft` equals the clamped
`np.std` of `_fast_fourier_transform` on every window. -/
theorem mftStd_eq_directStd (x : ℕ → ℝ) (W w : ℕ) (hW : 1 ≤ W) :
    mftStd x W w = directStd x W w := by
  rw [mftStd, directStd, incSums_eq]
  simp only []
  rw [variance_formula x W w hW]
  set b := Real.sqrt ((∑ j in Finset.range W,
    (x (w + j) - (∑ i in Finset.range W, x (w + i)) / W) ^ 2) / W) with hb
  rcases lt_trichotomy b 1e-8 with h | h | h
  · rw [if_neg (by linarith), if_pos h]
  · rw [if_neg (by linarith), if_neg (by linarith)]
    linarith
  · rw [if_pos h, if_neg (by linarith)]

theorem mft_norm_eq_aux (x : ℕ → ℝ) (W k w : ℕ) (hW : 1 ≤ W) :
    mftNormRe x W k w = directNormRe x W k w ∧
      mftNormIm x W k w = directNormIm x W k w := by
  have hp := mftPair_eq_dftC x W k hW w
  have hre : (mftPair x W k w).1 = dftRe x W w k := by
    rw [hp]
    exact dftC_re x W w k
  have him : (mftPair x W k w).2 = dftIm x W w k := by
    rw [hp]
    exact dftC_im x W w k
  have hstd := mftStd_eq_directStd x W w hW
  constructor
  · rw [mftNormRe, directNormRe, hre, hstd]
    ring
  · rw [mftNormIm, directNormIm, him, hstd]
    ring

/-- C1: for every series, window size `≥ 1`, coefficient pair `k` and
window position `w`, the incrementally updated, std-normalized and
`1/sqrt(W)`-scaled MFT coefficient equals the equally normalized direct
transform of window `w`'s samples — exactly, hence in particular within
`1e-9` for the spec scenario (`window_size=4, word_length=2, norm=false`,
series `[1..8]`, window 1 covering `[2,3,4,5]`, whose coefficient vector
is the `k = 0` real/imaginary pair). -/
theorem mft_incremental_matches_direct (x : ℕ → ℝ) (W k w : ℕ) (hW : 1 ≤ W) :
    (mftNormRe x W k w = directNormRe x W k w ∧
      mftNormIm x W k w = directNormIm x W k w) ∧
    (|mftNormRe demoSeries 4 0 1 - directNormRe demoSeries 4 0 1| ≤ 1e-9 ∧
      |mftNormIm demoSeries 4 0 1 - directNormIm demoSeries 4 0 1| ≤ 1e-9) := by
  refine ⟨mft_norm_eq_aux x W k w hW, ?_, ?_⟩
  · rw [(mft_norm_eq_aux demoSeries 4 0 1 (by norm_num)).1, sub_self, abs_zero]
    norm_num
  · rw [(mft_norm_eq_aux demoSeries 4 0 1 (by norm_num)).2, sub_self, abs_zero]
    norm_num

/-- Witness for C1 at the spec scenario itself. -/
theorem mft_incremental_matches_direct_witness :
    (1 ≤ 4) ∧
    ((mftNormRe demoSeries 4 0 1 = directNormRe demoSeries 4 0 1 ∧
      mftNormIm demoSeries 4 0 1 = directNormIm demoSeries 4 0 1) ∧
    (|mftNormRe demoSeries 4 0 1 - directNormRe demoSeries 4 0 1| ≤ 1e-9 ∧
      |mftNormIm demoSeries 4 0 1 - directNormIm demoSeries 4 0 1| ≤ 1e-9)) :=
  ⟨by norm_num, mft_incremental_matches_direct demoSeries 4 0 1 (by norm_num)⟩

end SFA
